import Mathlib

/-!
Verification of the `ez-clip` word-level editing core against its
natural-language specification.

The Python sources are shallowly embedded:
* `ez_clip_app/core/edit_mask.py` — `EditMask` (`build_ranges`, `dumps`,
  `loads`), with word times modelled as rationals and the JSON layer
  modelled by a structured payload (`kind` plus the `remove` span list).
* `ez_clip_app/core/diarize.py` — the fallback voting path of `diarize`
  and `merge_into_single_speaker`.
* `ez_clip_app/core/formatting.py` — `segments_to_markdown`.
* `ez_clip_app/ui/controllers/editor_ctrl.py` — `toggle_word`
  (Python list item assignment, including negative-index semantics).

Python-specific behaviours (slice assignment that may grow a list, `zip`
truncation, insertion-ordered dicts, `min`/`max` returning the first
extremal element) are embedded explicitly.
-/

namespace EzClip

/-- A transcribed word: surface form `w`, start second `s`, end second `e`
(matching `ez_clip_app/core/models.py::Word`).  Times are rationals. -/
structure Word where
  w : String
  s : ℚ
  e : ℚ
deriving DecidableEq, Repr

/-- Edit mask (`edit_mask.py::EditMask`): media id, keep vector, format tag. -/
structure EditMask where
  media_id : Int
  keep : List Bool
  kind : String := "mask-v1"
deriving DecidableEq, Repr

/-- The decoded JSON payload produced by `EditMask.dumps` and consumed by
`EditMask.loads`: `{"kind": ..., "remove": [[s,e], ...]}`.  The JSON
encode/decode layer itself is treated as transparent. -/
structure MaskPayload where
  kind : String
  remove : List (ℕ × ℕ)
deriving DecidableEq, Repr

/-- The loop of `EditMask.build_ranges`, on the `zip(words, keep)` pairs,
carrying the current open range (`cur` in the source; `None` encoded as
`none`).  Emits closed ranges left to right, and the still-open range at
the end. -/
def build_ranges_aux (glue_gap : ℚ) : List (Word × Bool) → Option (ℚ × ℚ) → List (ℚ × ℚ)
  | [], none => []
  | [], some cur => [cur]
  | (w, k) :: rest, cur =>
    if k then
      match cur with
      | some c =>
        if w.s - c.2 ≤ glue_gap then
          build_ranges_aux glue_gap rest (some (c.1, w.e))
        else
          c :: build_ranges_aux glue_gap rest (some (w.s, w.e))
      | none => build_ranges_aux glue_gap rest (some (w.s, w.e))
    else
      match cur with
      | some c => c :: build_ranges_aux glue_gap rest none
      | none => build_ranges_aux glue_gap rest none

/-- `EditMask.build_ranges(words, glue_gap)`: collapse `keep` into merged
`(start, end)` ranges.  `zip` truncates to the shorter of the two lists,
exactly as Python's `zip` does. -/
def EditMask.build_ranges (m : EditMask) (words : List Word) (glue_gap : ℚ) : List (ℚ × ℚ) :=
  build_ranges_aux glue_gap (words.zip m.keep) none

/-- Convenience form of `EditMask.build_ranges` taking the keep vector
directly. -/
def build_ranges (words : List Word) (keep : List Bool) (glue_gap : ℚ) : List (ℚ × ℚ) :=
  build_ranges_aux glue_gap (words.zip keep) none

/-- The scan inside `EditMask.dumps`: `i` is the index of the first element
of the remaining keep list, `st` the pending run start (`s` in the source,
`None` encoded as `none`).  Emits the removed spans left to right; a run
still open at the end is closed at `len(keep)`. -/
def remove_spans_aux : List Bool → ℕ → Option ℕ → List (ℕ × ℕ)
  | [], _, none => []
  | [], i, some st => [(st, i)]
  | k :: ks, i, none =>
    if k then remove_spans_aux ks (i + 1) none
    else remove_spans_aux ks (i + 1) (some i)
  | k :: ks, i, some st =>
    if k then (st, i) :: remove_spans_aux ks (i + 1) none
    else remove_spans_aux ks (i + 1) (some st)

/-- The `remove` list computed by `EditMask.dumps`: the maximal runs of
`false` in `keep`, as half-open index spans. -/
def remove_spans (keep : List Bool) : List (ℕ × ℕ) :=
  remove_spans_aux keep 0 none

/-- `EditMask.dumps()`: serialise as `{kind, remove}`. -/
def EditMask.dumps (m : EditMask) : MaskPayload :=
  ⟨m.kind, remove_spans m.keep⟩

/-- Python list slice assignment `l[s:e] = [False] * (e - s)` on a boolean
list.  Python replaces the (clamped) slice by the right-hand list, so when
`e` exceeds `len(l)` the result grows beyond `len(l)` — there is no
clamping of the span itself. -/
def py_slice_remove (l : List Bool) (s e : ℕ) : List Bool :=
  l.take s ++ List.replicate (e - s) false ++ l.drop (max s e)

/-- `EditMask.loads(media_id, json_str, total_words)`: start from an
all-`true` vector of length `total_words` and apply
`keep[s:e] = [False] * (e - s)` for each decoded span, left to right. -/
def EditMask.loads (media_id : Int) (p : MaskPayload) (total_words : ℕ) : EditMask :=
  ⟨media_id,
   p.remove.foldl (fun l sp => py_slice_remove l sp.1 sp.2) (List.replicate total_words true),
   p.kind⟩

/-- `EditMask.is_trivial()`. -/
def EditMask.is_trivial (m : EditMask) : Bool :=
  m.keep.all id

/-- `j` is covered by one of the half-open index spans. -/
def inSpans (sp : List (ℕ × ℕ)) (j : ℕ) : Prop :=
  ∃ p ∈ sp, p.1 ≤ j ∧ j < p.2

instance (sp : List (ℕ × ℕ)) (j : ℕ) : Decidable (inSpans sp j) := by
  unfold inSpans; infer_instance

/-! ### Speaker reconciliation (`ez_clip_app/core/diarize.py`) -/

/-- A transcription segment as the reconciler sees it: bounds in seconds,
text, and an optional speaker label (absent until assigned). -/
structure Seg where
  start : ℚ
  stop : ℚ
  text : String := ""
  speaker : Option String := none
deriving DecidableEq, Repr

/-- A diarization speaker turn (`{start, end, speaker}`). -/
structure Turn where
  start : ℚ
  stop : ℚ
  speaker : String
deriving DecidableEq, Repr

/-- Number of iterations of the Python loop
`current = start; while current < end: ...; current += 0.5`:
the naturals `k` with `start + k/2 < end`, i.e. `⌈2*(end - start)⌉⁺`. -/
def num_ticks (s e : ℚ) : ℕ :=
  (⌈2 * (e - s)⌉).toNat

/-- The 0.5-second ticks `start, start + 0.5, ...` strictly below `end`. -/
def ticks (s e : ℚ) : List ℚ :=
  (List.range (num_ticks s e)).map (fun k => s + (k : ℚ) / 2)

/-- First-match association lookup (the unambiguous read of a Python dict
whose keys are unique). -/
def alookup {α β : Type} [DecidableEq α] : List (α × β) → α → Option β
  | [], _ => none
  | p :: d, k => if p.1 = k then some p.2 else alookup d k

/-- Python dict assignment `d[k] = v` on an insertion-ordered association
list: an existing key keeps its position and gets the new value, a new key
is appended at the end. -/
def dict_insert (d : List (ℚ × String)) (k : ℚ) (v : String) : List (ℚ × String) :=
  match alookup d k with
  | some _ => d.map (fun p => if p.1 = k then (p.1, v) else p)
  | none => d ++ [(k, v)]

/-- Stamp one diarization turn into the tick-to-speaker map: one entry per
0.5-second tick of `[turn.start, turn.end)`, later turns overwriting
earlier ones at an existing tick key. -/
def stamp_turn (m : List (ℚ × String)) (t : Turn) : List (ℚ × String) :=
  (ticks t.start t.stop).foldl (fun m' k => dict_insert m' k t.speaker) m

/-- The `speaker_map` built by the fallback path of `diarize`. -/
def build_speaker_map (turns : List Turn) : List (ℚ × String) :=
  turns.foldl stamp_turn []

/-- Python `min(keys, key=lambda x: abs(x - t), default=None)`: the first
element minimising the absolute distance (Python's `min` keeps the current
best on ties, so the first minimum wins). -/
def py_min_abs (t : ℚ) : List ℚ → Option ℚ
  | [] => none
  | k :: ks => some (ks.foldl (fun best x => if |x - t| < |best - t| then x else best) k)

/-- The vote cast at tick `t`: the speaker of the closest stamped tick key,
provided that key is strictly within 1.0 second (`abs(closest - t) < 1.0`
in the source).  The map access always succeeds in the source because the
minimiser is drawn from the map's own keys. -/
def vote_of (d : List (ℚ × String)) (t : ℚ) : Option String :=
  match py_min_abs t (d.map Prod.fst) with
  | none => none
  | some k => if |k - t| < 1 then alookup d k else none

/-- Python dict counter update
`counts[s] = counts.get(s, 0) + 1` on an insertion-ordered association
list. -/
def bump (counts : List (String × ℕ)) (s : String) : List (String × ℕ) :=
  match alookup counts s with
  | some _ => counts.map (fun p => if p.1 = s then (p.1, p.2 + 1) else p)
  | none => counts ++ [(s, 1)]

/-- The `speaker_counts` dict accumulated over a segment's ticks. -/
def tally_votes (d : List (ℚ × String)) (ts : List ℚ) : List (String × ℕ) :=
  ts.foldl (fun counts t =>
    match vote_of d t with
    | none => counts
    | some s => bump counts s) []

/-- Python `max(items, key=lambda x: x[1])` on a nonempty list: the first
element with maximal second component (`max` replaces the running best only
on strict improvement). -/
def py_max_by_val : List (String × ℕ) → Option (String × ℕ)
  | [] => none
  | x :: xs => some (xs.foldl (fun best y => if best.2 < y.2 then y else best) x)

/-- The speaker the fallback path of `diarize` assigns to one segment with
bounds `[s, e)`: the most-voted speaker of its tick walk, or
`"SPEAKER_UNKNOWN"` when no vote was cast. -/
def fallback_segment_speaker (d : List (ℚ × String)) (s e : ℚ) : String :=
  match py_max_by_val (tally_votes d (ticks s e)) with
  | some p => p.1
  | none => "SPEAKER_UNKNOWN"

/-- The whole fallback assignment loop of `diarize` (lines 146–183):
build the speaker map from the turns, then label every segment. -/
def fallback_assign (turns : List Turn) (segs : List Seg) : List Seg :=
  segs.map fun sg =>
    { sg with speaker := some (fallback_segment_speaker (build_speaker_map turns) sg.start sg.stop) }

/-- `merge_into_single_speaker`: label every segment `"SPEAKER_1"`. -/
def merge_into_single_speaker (segs : List Seg) : List Seg :=
  segs.map fun sg => { sg with speaker := some "SPEAKER_1" }

/-- The outermost `try/except` of `diarize`: if the diarization attempt
(everything up to and including turn production and assignment) raised,
fall back to `merge_into_single_speaker`; no exception escapes. -/
def diarize_run (attempt : Except String (List Seg)) (segs : List Seg) : List Seg :=
  match attempt with
  | .ok out => out
  | .error _ => merge_into_single_speaker segs

/-! Reference definitions for the fallback voting, following the
specification's words (spec §4.2 step 2), used only to be compared with the
embedded source code above. -/

/-- Modelled from the spec: the distinct voted speakers in the order their
first vote was counted (a Python dict's insertion order). -/
def first_seen (l : List String) : List String :=
  l.foldl (fun acc s => if s ∈ acc then acc else acc ++ [s]) []

/-- Modelled from the spec: "assign the segment the speaker with the most
votes; ties broken by whichever speaker's votes were counted first; if zero
votes were cast, assign `SPEAKER_UNKNOWN`".  One vote is counted per tick
whose nearest stamped key lies within 1.0 second. -/
def spec_segment_speaker (d : List (ℚ × String)) (s e : ℚ) : String :=
  match (first_seen ((ticks s e).filterMap (vote_of d))).find?
      (fun spk => (first_seen ((ticks s e).filterMap (vote_of d))).all
        (fun spk' => ((ticks s e).filterMap (vote_of d)).count spk'
          ≤ ((ticks s e).filterMap (vote_of d)).count spk)) with
  | some spk => spk
  | none => "SPEAKER_UNKNOWN"

/-- Modelled from the spec: the per-segment voting description applied to
every segment. -/
def spec_fallback_assign (turns : List Turn) (segs : List Seg) : List Seg :=
  segs.map fun sg =>
    { sg with speaker := some (spec_segment_speaker (build_speaker_map turns) sg.start sg.stop) }

/-! ### Transcript formatting (`ez_clip_app/core/formatting.py`) -/

/-- Python `str.strip()`: drop leading and trailing whitespace (embedded
over the character list so that it evaluates by kernel reduction). -/
def py_strip (s : String) : String :=
  String.mk (((s.data.dropWhile Char.isWhitespace).reverse.dropWhile Char.isWhitespace).reverse)

/-- Python string interpolation of a possibly-`None` speaker
(`f"**{current_speaker}:** ..."`). -/
def py_str_opt : Option String → String
  | none => "None"
  | some s => s

/-- `seg.get("speaker", "SPEAKER_UNKNOWN")`. -/
def seg_speaker_label (sg : Seg) : String :=
  sg.speaker.getD "SPEAKER_UNKNOWN"

/-- `seg.get("text", "").strip()`, as the (possibly empty) list of pieces
appended to the buffer: empty text contributes nothing. -/
def seg_text_piece (sg : Seg) : List String :=
  if py_strip sg.text = "" then [] else [py_strip sg.text]

/-- `flush_buffer()`: a nonempty buffer becomes one
`**speaker:** text...` paragraph; an empty buffer emits nothing. -/
def fmt_flush (spk : Option String) (buf : List String) : List String :=
  if buf.isEmpty then [] else ["**" ++ py_str_opt spk ++ ":** " ++ py_strip (String.intercalate " " buf)]

/-- The main loop of `segments_to_markdown`: walk the sorted segments with
the current speaker and buffer, flushing on each speaker change and at the
end. -/
def fmt_walk : List Seg → Option String → List String → List String
  | [], spk, buf => fmt_flush spk buf
  | sg :: rest, spk, buf =>
    if some (seg_speaker_label sg) = spk then
      fmt_walk rest spk (buf ++ seg_text_piece sg)
    else
      fmt_flush spk buf ++ fmt_walk rest (some (seg_speaker_label sg)) (seg_text_piece sg)

/-- The sort key relation of `sorted(segments, key=lambda s: s["start"])`. -/
def segLE (a b : Seg) : Prop := a.start ≤ b.start

instance : DecidableRel segLE := fun a b => inferInstanceAs (Decidable (a.start ≤ b.start))

/-- Python's `sorted` is a stable sort by `start`; any stable sort computes
the same list, so it is embedded as a stable insertion sort. -/
def sortSegs (segs : List Seg) : List Seg :=
  List.insertionSort segLE segs

/-- `segments_to_markdown(segments)`. -/
def segments_to_markdown (segs : List Seg) : String :=
  if segs.isEmpty then "" else String.intercalate "\n\n" (fmt_walk (sortSegs segs) none [])

/-! Reference definitions for the formatter, following the specification's
words (spec §4.3), used only to be compared with the embedded source. -/

/-- Modelled from the spec: the maximal runs of consecutive same-speaker
segments, each with its buffered (stripped, nonempty) text pieces. -/
def chunk_by_speaker : List Seg → List (String × List String)
  | [] => []
  | sg :: rest =>
    match chunk_by_speaker rest with
    | (lbl, txts) :: more =>
      if seg_speaker_label sg = lbl then (lbl, seg_text_piece sg ++ txts) :: more
      else (seg_speaker_label sg, seg_text_piece sg) :: (lbl, txts) :: more
    | [] => [(seg_speaker_label sg, seg_text_piece sg)]

/-- Modelled from the spec: one paragraph per speaker run with a nonempty
buffer, `**speaker:** fragments joined by single spaces and trimmed`. -/
def paragraphs_of (chunks : List (String × List String)) : List String :=
  chunks.filterMap fun c =>
    if c.2.isEmpty then none
    else some ("**" ++ c.1 ++ ":** " ++ py_strip (String.intercalate " " c.2))

/-- Modelled from the spec: sort by start, group consecutive same-speaker
segments, join paragraphs by a blank line. -/
def spec_markdown (segs : List Seg) : String :=
  String.intercalate "\n\n" (paragraphs_of (chunk_by_speaker (sortSegs segs)))

/-! ### Word toggling (`ez_clip_app/ui/controllers/editor_ctrl.py`) -/

/-- Python list item assignment `l[idx] = v`: a negative index wraps by
`len(l)`; an index outside `[-len(l), len(l))` raises `IndexError`. -/
def py_set_item (l : List Bool) (idx : Int) (v : Bool) : Except String (List Bool) :=
  let j : Int := if idx < 0 then idx + l.length else idx
  if 0 ≤ j ∧ j < l.length then .ok (l.set j.toNat v) else .error "IndexError"

/-- `EditorController.toggle_word`'s mask update
(`edit_mask.keep[idx] = keep`): the mask with one entry assigned, or the
propagated `IndexError` leaving the mask unchanged. -/
def toggle_word (m : EditMask) (idx : Int) (v : Bool) : Except String EditMask :=
  (py_set_item m.keep idx v).map (fun k => { m with keep := k })

/-- The pending (speaker, buffer) state of the walk, merged onto the front
of the remaining speaker chunks. -/
def merge_head (spk : String) (buf : List String) :
    List (String × List String) → List (String × List String)
  | (lbl, txts) :: more => if lbl = spk then (spk, buf ++ txts) :: more else (spk, buf) :: (lbl, txts) :: more
  | [] => [(spk, buf)]

/-- The word fixture of `tests/test_editmask.py::test_build_ranges`
(`hello 0–0.5, this 0.6–0.9, is 1.0–1.2, a 1.3–1.4, test 1.5–2.0`). -/
def testWords : List Word :=
  [⟨"hello", 0, 1/2⟩, ⟨"this", 3/5, 9/10⟩, ⟨"is", 1, 6/5⟩, ⟨"a", 13/10, 7/5⟩, ⟨"test", 3/2, 2⟩]

/-- The word list of the C6 counterexample: sorted by start, each
`start ≤ end`, but overlapping. -/
def overlapWords : List Word := [⟨"a", 0, 5⟩, ⟨"b", 1, 2⟩, ⟨"c", 3, 4⟩]

end EzClip

namespace EzClip

theorem inSpans_cons {p : ℕ × ℕ} {sp : List (ℕ × ℕ)} {j : ℕ} :
    inSpans (p :: sp) j ↔ (p.1 ≤ j ∧ j < p.2) ∨ inSpans sp j := by
  simp [inSpans]

theorem inSpans_nil {j : ℕ} : ¬ inSpans ([] : List (ℕ × ℕ)) j := by
  simp [inSpans]

/-- Position coverage of the span scan: positions below `i` are covered
exactly by a pending run (`some s`), and position `i + m` is covered
exactly when the `m`-th remaining keep flag is `false`. -/
theorem remove_spans_aux_mem (ks : List Bool) : ∀ i : ℕ,
    (∀ j, j < i →
      (¬ inSpans (remove_spans_aux ks i none) j
        ∧ ∀ s, s ≤ i → (inSpans (remove_spans_aux ks i (some s)) j ↔ s ≤ j)))
    ∧ (∀ m : ℕ,
      (inSpans (remove_spans_aux ks i none) (i + m) ↔ ks[m]? = some false)
        ∧ ∀ s, s ≤ i → (inSpans (remove_spans_aux ks i (some s)) (i + m) ↔ ks[m]? = some false)) := by
  induction ks with
  | nil =>
    intro i
    refine ⟨fun j hj => ⟨by simp [remove_spans_aux, inSpans], fun s hs => ?_⟩,
      fun m => ⟨by simp [remove_spans_aux, inSpans], fun s hs => ?_⟩⟩
    · simp only [remove_spans_aux, inSpans_cons]
      constructor
      · rintro (⟨h1, _⟩ | h)
        · exact h1
        · exact absurd h inSpans_nil
      · intro h; exact Or.inl ⟨h, hj⟩
    · simp only [remove_spans_aux, inSpans_cons, List.getElem?_nil]
      constructor
      · rintro (⟨_, h2⟩ | h)
        · omega
        · exact absurd h inSpans_nil
      · intro h; cases h
  | cons k ks ih =>
    intro i
    have IH := ih (i + 1)
    cases k
    · -- k = false
      constructor
      · intro j hj
        constructor
        · show ¬ inSpans (remove_spans_aux ks (i+1) (some i)) j
          rw [(IH.1 j (by omega)).2 i (by omega)]
          omega
        · intro s hs
          show inSpans (remove_spans_aux ks (i+1) (some s)) j ↔ s ≤ j
          exact (IH.1 j (by omega)).2 s (by omega)
      · intro m
        constructor
        · show inSpans (remove_spans_aux ks (i+1) (some i)) (i + m) ↔ _
          cases m with
          | zero =>
            have h0 := (IH.1 i (by omega)).2 i (by omega)
            simpa using h0
          | succ m' =>
            rw [show i + (m' + 1) = (i + 1) + m' from by omega,
              (IH.2 m').2 i (by omega), List.getElem?_cons_succ]
        · intro s hs
          show inSpans (remove_spans_aux ks (i+1) (some s)) (i + m) ↔ _
          cases m with
          | zero =>
            have h0 := (IH.1 i (by omega)).2 s (by omega)
            simp only [Nat.add_zero, List.getElem?_cons_zero]
            rw [h0]
            simp [hs]
          | succ m' =>
            rw [show i + (m' + 1) = (i + 1) + m' from by omega,
              (IH.2 m').2 s (by omega), List.getElem?_cons_succ]
    · -- k = true
      constructor
      · intro j hj
        constructor
        · show ¬ inSpans (remove_spans_aux ks (i+1) none) j
          exact (IH.1 j (by omega)).1
        · intro s hs
          show inSpans ((s, i) :: remove_spans_aux ks (i+1) none) j ↔ s ≤ j
          rw [inSpans_cons]
          have hn := (IH.1 j (by omega)).1
          constructor
          · rintro (⟨h1, _⟩ | h)
            · exact h1
            · exact absurd h hn
          · intro h; exact Or.inl ⟨h, hj⟩
      · intro m
        constructor
        · show inSpans (remove_spans_aux ks (i+1) none) (i + m) ↔ _
          cases m with
          | zero =>
            have hn := (IH.1 i (by omega)).1
            simp only [Nat.add_zero, List.getElem?_cons_zero]
            constructor
            · intro h; exact absurd h hn
            · intro h; simp at h
          | succ m' =>
            rw [show i + (m' + 1) = (i + 1) + m' from by omega,
              (IH.2 m').1, List.getElem?_cons_succ]
        · intro s hs
          show inSpans ((s, i) :: remove_spans_aux ks (i+1) none) (i + m) ↔ _
          rw [inSpans_cons]
          cases m with
          | zero =>
            have hn := (IH.1 i (by omega)).1
            simp only [Nat.add_zero, List.getElem?_cons_zero]
            constructor
            · rintro (⟨_, h2⟩ | h)
              · simp at h2
              · exact absurd h hn
            · intro h; simp at h
          | succ m' =>
            rw [show i + (m' + 1) = (i + 1) + m' from by omega,
              (IH.2 m').1, List.getElem?_cons_succ]
            constructor
            · rintro (⟨_, h2⟩ | h)
              · simp at h2; omega
              · exact h
            · intro h; exact Or.inr h
end EzClip

namespace EzClip

/-- Every emitted span is nonempty and ends within the scanned region. -/
theorem remove_spans_aux_wf (ks : List Bool) : ∀ (i : ℕ) (st : Option ℕ),
    (∀ s, st = some s → s < i) →
    ∀ p ∈ remove_spans_aux ks i st, p.1 < p.2 ∧ p.2 ≤ i + ks.length := by
  induction ks with
  | nil =>
    intro i st hst p hp
    cases st with
    | none => simp [remove_spans_aux] at hp
    | some s =>
      simp [remove_spans_aux] at hp
      subst hp
      exact ⟨hst s rfl, by omega⟩
  | cons k ks ih =>
    intro i st hst p hp
    cases st with
    | none =>
      cases k with
      | false =>
        have := ih (i+1) (some i) (by intro s hs; cases hs; omega) p hp
        simp at this ⊢; omega
      | true =>
        have := ih (i+1) none (by intro s hs; cases hs) p hp
        simp at this ⊢; omega
    | some s =>
      cases k with
      | false =>
        have := ih (i+1) (some s) (by intro s' hs'; cases hs'; exact lt_trans (hst s rfl) (by omega)) p hp
        simp at this ⊢; omega
      | true =>
        have hred : remove_spans_aux (true :: ks) i (some s)
            = (s, i) :: remove_spans_aux ks (i+1) none := by
          simp [remove_spans_aux]
        rw [hred, List.mem_cons] at hp
        rcases hp with rfl | hp
        · exact ⟨hst s rfl, by simp⟩
        · have := ih (i+1) none (by intro s' hs'; cases hs') p hp
          simp at this ⊢; omega

/-- Every emitted span starts at or after the pending run start
(resp. the scan position). -/
theorem remove_spans_aux_lb (ks : List Bool) : ∀ (i : ℕ) (st : Option ℕ),
    (∀ s, st = some s → s < i) →
    ∀ p ∈ remove_spans_aux ks i st,
      (match st with | some s => s ≤ p.1 | none => i ≤ p.1) := by
  induction ks with
  | nil =>
    intro i st hst p hp
    cases st with
    | none => simp [remove_spans_aux] at hp
    | some s => simp [remove_spans_aux] at hp; subst hp; simp
  | cons k ks ih =>
    intro i st hst p hp
    cases st with
    | none =>
      cases k with
      | false =>
        have := ih (i+1) (some i) (by intro s hs; cases hs; omega) p hp
        simpa using this
      | true =>
        have := ih (i+1) none (by intro s hs; cases hs) p hp
        simp at this ⊢; omega
    | some s =>
      cases k with
      | false =>
        have := ih (i+1) (some s) (by intro s' hs'; cases hs'; exact lt_trans (hst s rfl) (by omega)) p hp
        simpa using this
      | true =>
        have hred : remove_spans_aux (true :: ks) i (some s)
            = (s, i) :: remove_spans_aux ks (i+1) none := by
          simp [remove_spans_aux]
        rw [hred, List.mem_cons] at hp
        rcases hp with rfl | hp
        · simp
        · have := ih (i+1) none (by intro s' hs'; cases hs') p hp
          simp at this ⊢
          have hsi := hst s rfl
          omega

/-- The emitted spans are strictly separated: each span ends strictly
before the next begins (no overlap and no adjacency). -/
theorem remove_spans_aux_chain (ks : List Bool) : ∀ (i : ℕ) (st : Option ℕ),
    (∀ s, st = some s → s < i) →
    List.Chain' (fun p q : ℕ × ℕ => p.2 < q.1) (remove_spans_aux ks i st) := by
  induction ks with
  | nil =>
    intro i st hst
    cases st <;> simp [remove_spans_aux]
  | cons k ks ih =>
    intro i st hst
    cases st with
    | none =>
      cases k with
      | false => exact ih (i+1) (some i) (by intro s hs; cases hs; omega)
      | true => exact ih (i+1) none (by intro s hs; cases hs)
    | some s =>
      cases k with
      | false => exact ih (i+1) (some s) (by intro s' hs'; cases hs'; exact lt_trans (hst s rfl) (by omega))
      | true =>
        show List.Chain' _ ((s, i) :: remove_spans_aux ks (i+1) none)
        rw [List.chain'_cons']
        refine ⟨?_, ih (i+1) none (by intro s' hs'; cases hs')⟩
        intro q hq
        have hmem : q ∈ remove_spans_aux ks (i+1) none := by
          cases hh : (remove_spans_aux ks (i+1) none).head? with
          | none => simp [hh] at hq
          | some q' => simp [hh] at hq; subst hq; exact List.mem_of_mem_head? hh
        have := remove_spans_aux_lb ks (i+1) none (by intro s' hs'; cases hs') q hmem
        simp at this ⊢
        omega
end EzClip

namespace EzClip

theorem py_slice_remove_length {l : List Bool} {s e : ℕ} (hs : s ≤ e) (he : e ≤ l.length) :
    (py_slice_remove l s e).length = l.length := by
  simp [py_slice_remove, max_eq_right hs]
  omega

theorem py_slice_remove_getElem {l : List Bool} {s e : ℕ} (hs : s ≤ e) (he : e ≤ l.length) (j : ℕ) :
    (py_slice_remove l s e)[j]? = if s ≤ j ∧ j < e then some false else l[j]? := by
  have hs' : s ≤ l.length := le_trans hs he
  simp only [py_slice_remove, max_eq_right hs]
  rcases Nat.lt_or_ge j s with hj | hj
  · rw [List.getElem?_append,
      if_pos (by simp only [List.length_append, List.length_take, List.length_replicate]; omega),
      List.getElem?_append,
      if_pos (by simp only [List.length_take]; omega),
      List.getElem?_take, if_pos (by omega), if_neg (by omega)]
  · rcases Nat.lt_or_ge j e with hj2 | hj2
    · rw [List.getElem?_append,
        if_pos (by simp only [List.length_append, List.length_take, List.length_replicate]; omega),
        List.getElem?_append,
        if_neg (by simp only [List.length_take]; omega),
        List.getElem?_replicate,
        if_pos (by simp only [List.length_take]; omega),
        if_pos (by omega)]
    · rw [List.getElem?_append,
        if_neg (by simp only [List.length_append, List.length_take, List.length_replicate]; omega),
        List.getElem?_drop, if_neg (by omega)]
      congr 1
      simp only [List.length_append, List.length_take, List.length_replicate]
      omega

/-- Applying a list of in-bounds spans by Python slice assignment sets
exactly the covered positions to `false` and preserves the length. -/
theorem loads_fold (spans : List (ℕ × ℕ)) : ∀ (init : List Bool),
    (∀ p ∈ spans, p.1 ≤ p.2 ∧ p.2 ≤ init.length) →
    (spans.foldl (fun l sp => py_slice_remove l sp.1 sp.2) init).length = init.length
    ∧ ∀ j, (spans.foldl (fun l sp => py_slice_remove l sp.1 sp.2) init)[j]?
        = if inSpans spans j then some false else init[j]? := by
  induction spans with
  | nil =>
    intro init _
    refine ⟨rfl, fun j => ?_⟩
    simp [inSpans_nil]
  | cons p rest ih =>
    intro init hb
    have hp := hb p (List.mem_cons_self p rest)
    have hlen : (py_slice_remove init p.1 p.2).length = init.length :=
      py_slice_remove_length hp.1 hp.2
    have hb' : ∀ q ∈ rest, q.1 ≤ q.2 ∧ q.2 ≤ (py_slice_remove init p.1 p.2).length := by
      intro q hq
      rw [hlen]
      exact hb q (List.mem_cons_of_mem p hq)
    have IH := ih (py_slice_remove init p.1 p.2) hb'
    simp only [List.foldl_cons]
    refine ⟨by rw [IH.1, hlen], fun j => ?_⟩
    rw [IH.2 j, py_slice_remove_getElem hp.1 hp.2]
    by_cases h1 : inSpans rest j
    · have hc : inSpans (p :: rest) j := inSpans_cons.mpr (Or.inr h1)
      simp [h1, hc]
    · by_cases h2 : p.1 ≤ j ∧ j < p.2
      · have hc : inSpans (p :: rest) j := inSpans_cons.mpr (Or.inl h2)
        simp [h1, h2, hc]
      · have hc : ¬ inSpans (p :: rest) j := fun h => (inSpans_cons.mp h).elim h2 h1
        simp [h1, h2, hc]
end EzClip

namespace EzClip

set_option maxHeartbeats 800000

/-- Claim C1 — round-trip law: for every `EditMask`,
`loads(media_id, dumps(), len(keep))` reconstructs a keep vector equal to
the original entry by entry (hence of the same length). -/
theorem dumps_loads_roundtrip (m : EditMask) :
    (EditMask.loads m.media_id m.dumps m.keep.length).keep = m.keep := by
  have hwf := remove_spans_aux_wf m.keep 0 none (by intro s hs; cases hs)
  have hb : ∀ p ∈ remove_spans m.keep,
      p.1 ≤ p.2 ∧ p.2 ≤ (List.replicate m.keep.length true).length := by
    intro p hp
    have h := hwf p hp
    simp only [List.length_replicate]
    exact ⟨le_of_lt h.1, by omega⟩
  have hf := loads_fold (remove_spans m.keep) (List.replicate m.keep.length true) hb
  show (remove_spans m.keep).foldl (fun l sp => py_slice_remove l sp.1 sp.2)
      (List.replicate m.keep.length true) = m.keep
  apply List.ext_getElem?
  intro j
  rw [hf.2 j]
  have hmem := ((remove_spans_aux_mem m.keep 0).2 j).1
  rw [Nat.zero_add] at hmem
  by_cases hj : j < m.keep.length
  · have hsome : m.keep[j]? = some m.keep[j] := List.getElem?_eq_getElem hj
    cases hkj : m.keep[j] with
    | false =>
      have hin : inSpans (remove_spans m.keep) j := by
        rw [remove_spans] at *
        rw [hmem, hsome, hkj]
      rw [if_pos hin, hsome, hkj]
    | true =>
      have hout : ¬ inSpans (remove_spans m.keep) j := by
        rw [remove_spans] at *
        rw [hmem, hsome, hkj]
        simp
      rw [if_neg hout, List.getElem?_replicate, if_pos hj, hsome, hkj]
  · have hnone : m.keep[j]? = none := List.getElem?_eq_none (by omega)
    have hout : ¬ inSpans (remove_spans m.keep) j := by
      rw [remove_spans] at *
      rw [hmem, hnone]
      simp
    rw [if_neg hout, List.getElem?_replicate, if_neg hj, hnone]

/-- Claim C7 — `dumps` emits a minimal run-length encoding: the `remove`
list consists of nonempty in-bounds half-open spans, strictly separated
(ascending, non-overlapping, non-adjacent), covering exactly the `false`
positions of `keep`; fixture `[T,F,F,T,T,F] ↦ [[1,3],[5,6]]`. -/
theorem dumps_minimal_spans (keep : List Bool) :
    (∀ p ∈ remove_spans keep, p.1 < p.2 ∧ p.2 ≤ keep.length)
    ∧ List.Chain' (fun p q : ℕ × ℕ => p.2 < q.1) (remove_spans keep)
    ∧ (∀ j, inSpans (remove_spans keep) j ↔ keep[j]? = some false)
    ∧ remove_spans [true, false, false, true, true, false] = [(1, 3), (5, 6)] := by
  refine ⟨?_, ?_, ?_, by decide⟩
  · intro p hp
    have h := remove_spans_aux_wf keep 0 none (by intro s hs; cases hs) p hp
    exact ⟨h.1, by omega⟩
  · exact remove_spans_aux_chain keep 0 none (by intro s hs; cases hs)
  · intro j
    have h := ((remove_spans_aux_mem keep 0).2 j).1
    rwa [Nat.zero_add] at h

theorem dumps_minimal_spans_witness :
    (1 : ℕ) < 3 ∧ (3 : ℕ) ≤ 6
      ∧ (inSpans (remove_spans [true, false, false, true, true, false]) 2
          ↔ [true, false, false, true, true, false][2]? = some false) := by
  have h := dumps_minimal_spans [true, false, false, true, true, false]
  refine ⟨(h.1 (1, 3) (by decide)).1, ?_, h.2.2.1 2⟩
  exact (h.1 (1, 3) (by decide)).2
end EzClip

namespace EzClip

/-- Claim C2 — glue-gap boundary semantics of `build_ranges`: anywhere in
the scan, two consecutive kept words with gap `next.start - prev.end ≤ g`
(in particular `= g`: the comparison is `<=`) continue one open range
ending at the second word's end, while a gap `> g` closes a range exactly
at the first word's end and opens a new one at the second word's bounds;
plus the source-test fixture with `glue_gap = 0.5`. -/
theorem build_ranges_glue_gap_boundary (g : ℚ) (w1 w2 : Word) (rest : List (Word × Bool))
    (cur : Option (ℚ × ℚ)) :
    (w2.s - w1.e ≤ g →
      build_ranges_aux g ((w1, true) :: (w2, true) :: rest) cur
        = match cur with
          | none => build_ranges_aux g rest (some (w1.s, w2.e))
          | some c =>
            if w1.s - c.2 ≤ g then build_ranges_aux g rest (some (c.1, w2.e))
            else c :: build_ranges_aux g rest (some (w1.s, w2.e)))
    ∧ (g < w2.s - w1.e →
      build_ranges_aux g ((w1, true) :: (w2, true) :: rest) cur
        = match cur with
          | none => (w1.s, w1.e) :: build_ranges_aux g rest (some (w2.s, w2.e))
          | some c =>
            if w1.s - c.2 ≤ g then (c.1, w1.e) :: build_ranges_aux g rest (some (w2.s, w2.e))
            else c :: (w1.s, w1.e) :: build_ranges_aux g rest (some (w2.s, w2.e)))
    ∧ build_ranges testWords [true, false, true, true, false] (1/2) = [(0, 1/2), (1, 7/5)] := by
  refine ⟨?_, ?_, ?_⟩
  · intro h
    cases cur with
    | none => simp [build_ranges_aux, h]
    | some c =>
      by_cases hc : w1.s - c.2 ≤ g
      · simp [build_ranges_aux, h, hc]
      · simp [build_ranges_aux, h, hc]
  · intro h
    have hneg : ¬ (w2.s - w1.e ≤ g) := not_le.mpr h
    cases cur with
    | none => simp [build_ranges_aux, hneg]
    | some c =>
      by_cases hc : w1.s - c.2 ≤ g
      · simp [build_ranges_aux, hneg, hc]
      · simp [build_ranges_aux, hneg, hc]
  · norm_num [build_ranges, build_ranges_aux, testWords]

theorem build_ranges_glue_gap_boundary_witness :
    ((3:ℚ) - 1 ≤ 2
      ∧ build_ranges_aux 2 [(⟨"x", 0, 1⟩, true), (⟨"y", 3, 4⟩, true)] none
          = build_ranges_aux 2 [] (some (0, 4)))
    ∧ ((1:ℚ) < 3 - 1
      ∧ build_ranges_aux 1 [(⟨"x", 0, 1⟩, true), (⟨"y", 3, 4⟩, true)] none
          = (0, 1) :: build_ranges_aux 1 [] (some (3, 4))) := by
  constructor
  · exact ⟨by norm_num,
      (build_ranges_glue_gap_boundary 2 ⟨"x", 0, 1⟩ ⟨"y", 3, 4⟩ [] none).1 (by norm_num)⟩
  · exact ⟨by norm_num,
      (build_ranges_glue_gap_boundary 1 ⟨"x", 0, 1⟩ ⟨"y", 3, 4⟩ [] none).2.1 (by norm_num)⟩

theorem zip_take_min {α β : Type} : ∀ (xs : List α) (ys : List β),
    xs.zip ys = (xs.take (min xs.length ys.length)).zip (ys.take (min xs.length ys.length)) := by
  intro xs
  induction xs with
  | nil => intro ys; simp
  | cons x xs ih =>
    intro ys
    cases ys with
    | nil => simp
    | cons y ys =>
      simp only [List.zip_cons_cons, List.length_cons, Nat.succ_min_succ, List.take_succ_cons]
      rw [ih ys]

/-- Claim C10 — `build_ranges` is total on mismatched lengths: it scans
exactly the first `min(len(words), len(keep))` word/flag pairs (Python
`zip` truncation), so it equals its own restriction to the common prefix
and silently ignores the excess of the longer sequence. -/
theorem build_ranges_zip_truncation (words : List Word) (keep : List Bool) (g : ℚ) :
    build_ranges words keep g
      = build_ranges (words.take (min words.length keep.length))
          (keep.take (min words.length keep.length)) g := by
  unfold build_ranges
  rw [← zip_take_min]

/-- Claim C3, counterexample: a span reaching past `total_words` is not
clamped — `loads` with `total_words = 2` and span `[0,3]` yields a keep
vector of length 3, not 2, refuting "still returns a mask whose keep
vector has length exactly total_words". -/
theorem loads_no_clamp_cex :
    (EditMask.loads 1 ⟨"mask-v1", [(0, 3)]⟩ 2).keep = [false, false, false]
    ∧ ((EditMask.loads 1 ⟨"mask-v1", [(0, 3)]⟩ 2).keep.length = 2 → False) := by
  decide

/-- Claim C3, amended: `loads` never fails on an overlong span, but does
not clamp: a span `[s, e]` with `s ≤ total_words ≤ e` grows the keep
vector to length `e` (Python slice assignment replaces the clamped slice
by the full replacement list), so the result is `s` kept entries followed
by `e - s` cut entries. -/
theorem loads_overlong_span (media_id : Int) (kind : String) (s e total : ℕ)
    (hs : s ≤ total) (he : total ≤ e) :
    (EditMask.loads media_id ⟨kind, [(s, e)]⟩ total).keep
        = List.replicate s true ++ List.replicate (e - s) false
    ∧ (EditMask.loads media_id ⟨kind, [(s, e)]⟩ total).keep.length = e := by
  have hse : s ≤ e := le_trans hs he
  have hkeep : (EditMask.loads media_id ⟨kind, [(s, e)]⟩ total).keep
      = py_slice_remove (List.replicate total true) s e := rfl
  have h1 : (EditMask.loads media_id ⟨kind, [(s, e)]⟩ total).keep
      = List.replicate s true ++ List.replicate (e - s) false := by
    rw [hkeep]
    unfold py_slice_remove
    rw [max_eq_right hse, List.take_replicate, List.drop_replicate, min_eq_left hs,
      Nat.sub_eq_zero_of_le he]
    simp
  refine ⟨h1, ?_⟩
  rw [h1]
  simp only [List.length_append, List.length_replicate]
  omega

theorem loads_overlong_span_witness :
    (1 : ℕ) ≤ 2 ∧ (2 : ℕ) ≤ 4
      ∧ (EditMask.loads 7 ⟨"mask-v1", [(1, 4)]⟩ 2).keep
          = List.replicate 1 true ++ List.replicate 3 false
      ∧ (EditMask.loads 7 ⟨"mask-v1", [(1, 4)]⟩ 2).keep.length = 4 := by
  have h := loads_overlong_span 7 "mask-v1" 1 4 2 (by decide) (by decide)
  exact ⟨by decide, by decide, h.1, h.2⟩

/-- Claim C6, counterexample: under the claim's hypotheses alone (words
sorted by start with `start ≤ end`, equal-length keep, `glue_gap ≥ 0`) the
output need not be ascending or non-overlapping: overlapping words with
keep `[T,F,T]` and `glue_gap 0` give `[(0,5), (3,4)]`, whose second range
starts before the first one ends. -/
theorem build_ranges_overlap_cex :
    List.Chain' (fun a b : Word => a.s ≤ b.s) overlapWords
    ∧ (∀ w ∈ overlapWords, w.s ≤ w.e)
    ∧ ([true, false, true] : List Bool).length = overlapWords.length
    ∧ (0:ℚ) ≤ 0
    ∧ build_ranges overlapWords [true, false, true] 0 = [(0, 5), (3, 4)]
    ∧ ¬ List.Chain' (fun r r' : ℚ × ℚ => r.2 < r'.1)
        (build_ranges overlapWords [true, false, true] 0) := by
  have hr : build_ranges overlapWords [true, false, true] 0 = [(0, 5), (3, 4)] := by
    norm_num [build_ranges, build_ranges_aux, overlapWords]
  refine ⟨?_, ?_, rfl, le_refl 0, hr, ?_⟩
  · norm_num [overlapWords, List.chain'_cons, List.chain'_singleton]
  · intro w hw
    simp only [overlapWords, List.mem_cons, List.mem_singleton] at hw
    rcases hw with rfl | rfl | rfl | h
    · norm_num
    · norm_num
    · norm_num
    · cases h
  · rw [hr]
    simp only [List.chain'_cons, List.chain'_singleton, and_true]
    norm_num
end EzClip

namespace EzClip

theorem chain_head_lb : ∀ (rest : List (Word × Bool)) (w : Word × Bool),
    (∀ p ∈ rest, p.1.s ≤ p.1.e) →
    List.Chain' (fun a b : Word × Bool => a.1.e ≤ b.1.s) (w :: rest) →
    ∀ p ∈ rest, w.1.e ≤ p.1.s := by
  intro rest
  induction rest with
  | nil => intro w _ _ p hp; cases hp
  | cons q rest' ih =>
    intro w hwf hch p hp
    have h1 : w.1.e ≤ q.1.s := (List.chain'_cons.mp hch).1
    rcases List.mem_cons.mp hp with rfl | hp'
    · exact h1
    · have hq : q.1.s ≤ q.1.e := hwf q (List.mem_cons_self _ _)
      have := ih q (fun p hp => hwf p (List.mem_cons_of_mem _ hp)) (List.chain'_cons.mp hch).2 p hp'
      exact le_trans (le_trans h1 hq) this
end EzClip

namespace EzClip

/-- Master invariant for `build_ranges_aux` on non-overlapping word lists:
the output ranges are weakly separated, well-formed, bounded below by the
open range, the open range lands in the output, every kept word is covered,
and every endpoint comes from the open range or a kept word. -/
theorem build_ranges_aux_good (g : ℚ) (hg : 0 ≤ g) :
    ∀ (l : List (Word × Bool)) (cur : Option (ℚ × ℚ)),
    (∀ p ∈ l, p.1.s ≤ p.1.e) →
    List.Chain' (fun a b : Word × Bool => a.1.e ≤ b.1.s) l →
    (∀ c, cur = some c → c.1 ≤ c.2 ∧ ∀ p ∈ l, c.2 ≤ p.1.s) →
    List.Chain' (fun r r' : ℚ × ℚ => r.2 ≤ r'.1) (build_ranges_aux g l cur)
    ∧ (∀ r ∈ build_ranges_aux g l cur, r.1 ≤ r.2)
    ∧ (∀ r ∈ build_ranges_aux g l cur, ∀ c, cur = some c → c.1 ≤ r.1)
    ∧ (cur = none → ∀ x : ℚ, (∀ p ∈ l, x ≤ p.1.s) →
        ∀ r ∈ build_ranges_aux g l cur, x ≤ r.1)
    ∧ (∀ c, cur = some c → ∃ r ∈ build_ranges_aux g l cur, r.1 = c.1 ∧ c.2 ≤ r.2)
    ∧ (∀ w : Word, (w, true) ∈ l → ∃ r ∈ build_ranges_aux g l cur, r.1 ≤ w.s ∧ w.e ≤ r.2)
    ∧ (∀ r ∈ build_ranges_aux g l cur,
        ((∃ c, cur = some c ∧ r.1 = c.1) ∨ ∃ w : Word, (w, true) ∈ l ∧ r.1 = w.s)
        ∧ ((∃ c, cur = some c ∧ r.2 = c.2) ∨ ∃ w : Word, (w, true) ∈ l ∧ r.2 = w.e)) := by
  intro l
  induction l with
  | nil =>
    intro cur hwf hch hcur
    cases cur with
    | none =>
      refine ⟨by simp [build_ranges_aux], ?_, ?_, ?_, ?_, ?_, ?_⟩ <;>
        simp [build_ranges_aux]
    | some c =>
      have hc := hcur c rfl
      have hred : build_ranges_aux g [] (some c) = [c] := by simp [build_ranges_aux]
      rw [hred]
      refine ⟨List.chain'_singleton c, ?_, ?_, ?_, ?_, ?_, ?_⟩
      · intro r hr
        rcases List.mem_singleton.mp hr with rfl
        exact hc.1
      · intro r hr c' hc'
        obtain rfl : c = c' := Option.some.inj hc'
        rcases List.mem_singleton.mp hr with rfl
        exact le_refl _
      · intro h; cases h
      · intro c' hc'
        obtain rfl : c = c' := Option.some.inj hc'
        exact ⟨c, List.mem_singleton_self c, rfl, le_refl _⟩
      · intro w hw; cases hw
      · intro r hr
        rcases List.mem_singleton.mp hr with rfl
        exact ⟨Or.inl ⟨r, rfl, rfl⟩, Or.inl ⟨r, rfl, rfl⟩⟩
  | cons hd rest ih =>
    obtain ⟨w, k⟩ := hd
    intro cur hwf hch hcur
    have hwf' : ∀ p ∈ rest, p.1.s ≤ p.1.e := fun p hp => hwf p (List.mem_cons_of_mem _ hp)
    have hch' := (List.chain'_cons'.mp hch).2
    have hwe : w.s ≤ w.e := hwf (w, k) (List.mem_cons_self _ _)
    have hlb : ∀ p ∈ rest, w.e ≤ p.1.s := chain_head_lb rest (w, k) hwf' hch
    cases k
    · -- cut word
      cases cur with
      | none =>
        have hred : build_ranges_aux g ((w, false) :: rest) none
            = build_ranges_aux g rest none := by simp [build_ranges_aux]
        rw [hred]
        have IH := ih none hwf' hch' (by intro c hc; cases hc)
        refine ⟨IH.1, IH.2.1, ?_, ?_, ?_, ?_, ?_⟩
        · intro r hr c hc; cases hc
        · intro _ x hx r hr
          exact IH.2.2.2.1 rfl x (fun p hp => hx p (List.mem_cons_of_mem _ hp)) r hr
        · intro c hc; cases hc
        · intro w' hw'
          rcases List.mem_cons.mp hw' with heq | hw'
          · cases heq
          · exact IH.2.2.2.2.2.1 w' hw'
        · intro r hr
          have h := IH.2.2.2.2.2.2 r hr
          refine ⟨?_, ?_⟩
          · rcases h.1 with ⟨c, hc, _⟩ | ⟨w', hw', he⟩
            · cases hc
            · exact Or.inr ⟨w', List.mem_cons_of_mem _ hw', he⟩
          · rcases h.2 with ⟨c, hc, _⟩ | ⟨w', hw', he⟩
            · cases hc
            · exact Or.inr ⟨w', List.mem_cons_of_mem _ hw', he⟩
      | some c =>
        have hc := hcur c rfl
        have hcr : ∀ p ∈ rest, c.2 ≤ p.1.s := fun p hp => hc.2 p (List.mem_cons_of_mem _ hp)
        have hred : build_ranges_aux g ((w, false) :: rest) (some c)
            = c :: build_ranges_aux g rest none := by simp [build_ranges_aux]
        rw [hred]
        have IH := ih none hwf' hch' (by intro c' hc'; cases hc')
        have hRlb : ∀ r ∈ build_ranges_aux g rest none, c.2 ≤ r.1 :=
          IH.2.2.2.1 rfl c.2 hcr
        refine ⟨?_, ?_, ?_, ?_, ?_, ?_, ?_⟩
        · rw [List.chain'_cons']
          refine ⟨?_, IH.1⟩
          intro q hq
          exact hRlb q (List.mem_of_mem_head? hq)
        · intro r hr
          rcases List.mem_cons.mp hr with rfl | hr
          · exact hc.1
          · exact IH.2.1 r hr
        · intro r hr c' hc'
          obtain rfl : c = c' := Option.some.inj hc'
          rcases List.mem_cons.mp hr with rfl | hr
          · exact le_refl _
          · exact le_trans hc.1 (hRlb r hr)
        · intro h; cases h
        · intro c' hc'
          obtain rfl : c = c' := Option.some.inj hc'
          exact ⟨c, List.mem_cons_self _ _, rfl, le_refl _⟩
        · intro w' hw'
          rcases List.mem_cons.mp hw' with heq | hw'
          · cases heq
          · obtain ⟨r, hr, h1, h2⟩ := IH.2.2.2.2.2.1 w' hw'
            exact ⟨r, List.mem_cons_of_mem _ hr, h1, h2⟩
        · intro r hr
          rcases List.mem_cons.mp hr with rfl | hr
          · exact ⟨Or.inl ⟨r, rfl, rfl⟩, Or.inl ⟨r, rfl, rfl⟩⟩
          · have h := IH.2.2.2.2.2.2 r hr
            refine ⟨?_, ?_⟩
            · rcases h.1 with ⟨c', hc', _⟩ | ⟨w', hw', he⟩
              · cases hc'
              · exact Or.inr ⟨w', List.mem_cons_of_mem _ hw', he⟩
            · rcases h.2 with ⟨c', hc', _⟩ | ⟨w', hw', he⟩
              · cases hc'
              · exact Or.inr ⟨w', List.mem_cons_of_mem _ hw', he⟩
    · -- kept word
      cases cur with
      | none =>
        have hred : build_ranges_aux g ((w, true) :: rest) none
            = build_ranges_aux g rest (some (w.s, w.e)) := by simp [build_ranges_aux]
        rw [hred]
        have hcur' : ∀ c, some (w.s, w.e) = some c → c.1 ≤ c.2 ∧ ∀ p ∈ rest, c.2 ≤ p.1.s := by
          intro c hc
          obtain rfl : (w.s, w.e) = c := Option.some.inj hc
          exact ⟨hwe, hlb⟩
        have IH := ih (some (w.s, w.e)) hwf' hch' hcur'
        have hRlb : ∀ r ∈ build_ranges_aux g rest (some (w.s, w.e)), w.s ≤ r.1 :=
          fun r hr => IH.2.2.1 r hr (w.s, w.e) rfl
        refine ⟨IH.1, IH.2.1, ?_, ?_, ?_, ?_, ?_⟩
        · intro r hr c hc; cases hc
        · intro _ x hx r hr
          exact le_trans (hx (w, true) (List.mem_cons_self _ _)) (hRlb r hr)
        · intro c hc; cases hc
        · intro w' hw'
          rcases List.mem_cons.mp hw' with heq | hw'
          · have heqw : w' = w := congrArg Prod.fst heq
            obtain ⟨r, hr, h1, h2⟩ := IH.2.2.2.2.1 (w.s, w.e) rfl
            exact ⟨r, hr, by rw [heqw]; exact le_of_eq h1, by rw [heqw]; exact h2⟩
          · exact IH.2.2.2.2.2.1 w' hw'
        · intro r hr
          have h := IH.2.2.2.2.2.2 r hr
          refine ⟨?_, ?_⟩
          · rcases h.1 with ⟨c, hc, he⟩ | ⟨w', hw', he⟩
            · obtain rfl : (w.s, w.e) = c := Option.some.inj hc
              exact Or.inr ⟨w, List.mem_cons_self _ _, he⟩
            · exact Or.inr ⟨w', List.mem_cons_of_mem _ hw', he⟩
          · rcases h.2 with ⟨c, hc, he⟩ | ⟨w', hw', he⟩
            · obtain rfl : (w.s, w.e) = c := Option.some.inj hc
              exact Or.inr ⟨w, List.mem_cons_self _ _, he⟩
            · exact Or.inr ⟨w', List.mem_cons_of_mem _ hw', he⟩
      | some c =>
        have hc := hcur c rfl
        have hcw : c.2 ≤ w.s := hc.2 (w, true) (List.mem_cons_self _ _)
        by_cases hm : w.s - c.2 ≤ g
        · -- merge
          have hred : build_ranges_aux g ((w, true) :: rest) (some c)
              = build_ranges_aux g rest (some (c.1, w.e)) := by
            simp [build_ranges_aux, hm]
          rw [hred]
          have hcur' : ∀ c', some (c.1, w.e) = some c' → c'.1 ≤ c'.2 ∧ ∀ p ∈ rest, c'.2 ≤ p.1.s := by
            intro c' hc'
            obtain rfl : (c.1, w.e) = c' := Option.some.inj hc'
            exact ⟨le_trans hc.1 (le_trans hcw hwe), hlb⟩
          have IH := ih (some (c.1, w.e)) hwf' hch' hcur'
          refine ⟨IH.1, IH.2.1, ?_, ?_, ?_, ?_, ?_⟩
          · intro r hr c' hc'
            obtain rfl : c = c' := Option.some.inj hc'
            exact IH.2.2.1 r hr (c.1, w.e) rfl
          · intro h; cases h
          · intro c' hc'
            obtain rfl : c = c' := Option.some.inj hc'
            obtain ⟨r, hr, h1, h2⟩ := IH.2.2.2.2.1 (c.1, w.e) rfl
            exact ⟨r, hr, h1, le_trans (le_trans hcw hwe) h2⟩
          · intro w' hw'
            rcases List.mem_cons.mp hw' with heq | hw'
            · have heqw : w' = w := congrArg Prod.fst heq
              obtain ⟨r, hr, h1, h2⟩ := IH.2.2.2.2.1 (c.1, w.e) rfl
              refine ⟨r, hr, ?_, by rw [heqw]; exact h2⟩
              rw [heqw, h1]
              exact le_trans hc.1 hcw
            · exact IH.2.2.2.2.2.1 w' hw'
          · intro r hr
            have h := IH.2.2.2.2.2.2 r hr
            refine ⟨?_, ?_⟩
            · rcases h.1 with ⟨c', hc', he⟩ | ⟨w', hw', he⟩
              · obtain rfl : (c.1, w.e) = c' := Option.some.inj hc'
                exact Or.inl ⟨c, rfl, he⟩
              · exact Or.inr ⟨w', List.mem_cons_of_mem _ hw', he⟩
            · rcases h.2 with ⟨c', hc', he⟩ | ⟨w', hw', he⟩
              · obtain rfl : (c.1, w.e) = c' := Option.some.inj hc'
                exact Or.inr ⟨w, List.mem_cons_self _ _, he⟩
              · exact Or.inr ⟨w', List.mem_cons_of_mem _ hw', he⟩
        · -- close and reopen
          have hgap : c.2 < w.s := by
            have := not_le.mp hm
            linarith
          have hred : build_ranges_aux g ((w, true) :: rest) (some c)
              = c :: build_ranges_aux g rest (some (w.s, w.e)) := by
            simp [build_ranges_aux, hm]
          rw [hred]
          have hcur' : ∀ c', some (w.s, w.e) = some c' → c'.1 ≤ c'.2 ∧ ∀ p ∈ rest, c'.2 ≤ p.1.s := by
            intro c' hc'
            obtain rfl : (w.s, w.e) = c' := Option.some.inj hc'
            exact ⟨hwe, hlb⟩
          have IH := ih (some (w.s, w.e)) hwf' hch' hcur'
          have hRlb : ∀ r ∈ build_ranges_aux g rest (some (w.s, w.e)), w.s ≤ r.1 :=
            fun r hr => IH.2.2.1 r hr (w.s, w.e) rfl
          refine ⟨?_, ?_, ?_, ?_, ?_, ?_, ?_⟩
          · rw [List.chain'_cons']
            refine ⟨?_, IH.1⟩
            intro q hq
            exact le_trans (le_of_lt hgap) (hRlb q (List.mem_of_mem_head? hq))
          · intro r hr
            rcases List.mem_cons.mp hr with rfl | hr
            · exact hc.1
            · exact IH.2.1 r hr
          · intro r hr c' hc'
            obtain rfl : c = c' := Option.some.inj hc'
            rcases List.mem_cons.mp hr with rfl | hr
            · exact le_refl _
            · exact le_trans hc.1 (le_trans (le_of_lt hgap) (hRlb r hr))
          · intro h; cases h
          · intro c' hc'
            obtain rfl : c = c' := Option.some.inj hc'
            exact ⟨c, List.mem_cons_self _ _, rfl, le_refl _⟩
          · intro w' hw'
            rcases List.mem_cons.mp hw' with heq | hw'
            · have heqw : w' = w := congrArg Prod.fst heq
              obtain ⟨r, hr, h1, h2⟩ := IH.2.2.2.2.1 (w.s, w.e) rfl
              exact ⟨r, List.mem_cons_of_mem _ hr, by rw [heqw]; exact le_of_eq h1,
                by rw [heqw]; exact h2⟩
            · obtain ⟨r, hr, h1, h2⟩ := IH.2.2.2.2.2.1 w' hw'
              exact ⟨r, List.mem_cons_of_mem _ hr, h1, h2⟩
          · intro r hr
            rcases List.mem_cons.mp hr with rfl | hr
            · exact ⟨Or.inl ⟨r, rfl, rfl⟩, Or.inl ⟨r, rfl, rfl⟩⟩
            · have h := IH.2.2.2.2.2.2 r hr
              refine ⟨?_, ?_⟩
              · rcases h.1 with ⟨c', hc', he⟩ | ⟨w', hw', he⟩
                · obtain rfl : (w.s, w.e) = c' := Option.some.inj hc'
                  exact Or.inr ⟨w, List.mem_cons_self _ _, he⟩
                · exact Or.inr ⟨w', List.mem_cons_of_mem _ hw', he⟩
              · rcases h.2 with ⟨c', hc', he⟩ | ⟨w', hw', he⟩
                · obtain rfl : (w.s, w.e) = c' := Option.some.inj hc'
                  exact Or.inr ⟨w, List.mem_cons_self _ _, he⟩
                · exact Or.inr ⟨w', List.mem_cons_of_mem _ hw', he⟩
end EzClip

namespace EzClip

/-- Claim C6, amended: for pairwise non-overlapping words
(`prev.end ≤ next.start`, each `start ≤ end`), an equal-length keep vector
and `glue_gap ≥ 0`, the ranges are ascending and weakly non-overlapping
(each range's start is at least the previous range's end; equality can
occur), each range is well-formed, and the ranges cover exactly the kept
words: every kept word's interval lies inside some range, and every range
starts at a kept word's start and ends at a kept word's end. -/
theorem build_ranges_export_contract (words : List Word) (keep : List Bool) (g : ℚ)
    (hg : 0 ≤ g)
    (hwf : ∀ w ∈ words, w.s ≤ w.e)
    (hch : List.Chain' (fun a b : Word => a.e ≤ b.s) words)
    (hlen : keep.length = words.length) :
    List.Chain' (fun r r' : ℚ × ℚ => r.2 ≤ r'.1) (build_ranges words keep g)
    ∧ (∀ r ∈ build_ranges words keep g, r.1 ≤ r.2)
    ∧ (∀ w : Word, (w, true) ∈ words.zip keep →
        ∃ r ∈ build_ranges words keep g, r.1 ≤ w.s ∧ w.e ≤ r.2)
    ∧ (∀ r ∈ build_ranges words keep g,
        (∃ w : Word, (w, true) ∈ words.zip keep ∧ r.1 = w.s)
        ∧ (∃ w : Word, (w, true) ∈ words.zip keep ∧ r.2 = w.e)) := by
  have hmap : (words.zip keep).map Prod.fst = words :=
    List.map_fst_zip words keep (le_of_eq hlen.symm)
  have hwf_l : ∀ p ∈ words.zip keep, p.1.s ≤ p.1.e := by
    intro p hp
    apply hwf
    rw [← hmap]
    exact List.mem_map_of_mem Prod.fst hp
  have hch_l : List.Chain' (fun a b : Word × Bool => a.1.e ≤ b.1.s) (words.zip keep) := by
    rw [← hmap] at hch
    exact (List.chain'_map Prod.fst).mp hch
  have h := build_ranges_aux_good g hg (words.zip keep) none hwf_l hch_l
    (by intro c hc; cases hc)
  refine ⟨h.1, h.2.1, h.2.2.2.2.2.1, ?_⟩
  intro r hr
  have h7 := h.2.2.2.2.2.2 r hr
  refine ⟨?_, ?_⟩
  · rcases h7.1 with ⟨c, hc, _⟩ | hx
    · cases hc
    · exact hx
  · rcases h7.2 with ⟨c, hc, _⟩ | hx
    · cases hc
    · exact hx

theorem build_ranges_export_contract_witness :
    List.Chain' (fun r r' : ℚ × ℚ => r.2 ≤ r'.1)
      (build_ranges [⟨"a", 0, 1⟩, ⟨"b", 2, 3⟩] [true, true] 0)
    ∧ ∃ r ∈ build_ranges [⟨"a", 0, 1⟩, ⟨"b", 2, 3⟩] [true, true] 0,
        r.1 ≤ (⟨"b", 2, 3⟩ : Word).s ∧ (⟨"b", 2, 3⟩ : Word).e ≤ r.2 := by
  have h := build_ranges_export_contract [⟨"a", 0, 1⟩, ⟨"b", 2, 3⟩] [true, true] 0
    (le_refl 0)
    (by
      intro w hw
      rcases List.mem_cons.mp hw with rfl | hw
      · norm_num
      · rcases List.mem_cons.mp hw with rfl | hw
        · norm_num
        · cases hw)
    (by
      simp only [List.chain'_cons, List.chain'_singleton, and_true]
      norm_num)
    rfl
  exact ⟨h.1, h.2.2.1 ⟨"b", 2, 3⟩ (by simp [List.zip_cons_cons])⟩
end EzClip

namespace EzClip

/-- Claim C5 — total diarization failure collapses to single-speaker mode:
when the diarization attempt raises, every segment — regardless of its
content — is returned with the fixed label `SPEAKER_1`, all other fields
unchanged, and no error escapes (`diarize_run` returns a plain list). -/
theorem diarize_total_failure_single_speaker (err : String) (segs : List Seg) :
    diarize_run (Except.error err) segs
        = segs.map (fun sg => { sg with speaker := some "SPEAKER_1" })
    ∧ (diarize_run (Except.error err) segs).map Seg.speaker
        = List.replicate segs.length (some "SPEAKER_1") := by
  refine ⟨rfl, ?_⟩
  show (merge_into_single_speaker segs).map Seg.speaker = _
  unfold merge_into_single_speaker
  rw [List.map_map]
  have hfun : (Seg.speaker ∘ fun sg => { sg with speaker := some "SPEAKER_1" })
      = fun _ : Seg => some "SPEAKER_1" := rfl
  rw [hfun]
  induction segs with
  | nil => rfl
  | cons sg rest ih => simp [List.replicate_succ, ih]

/-- Claim C9, counterexample: index `-1` is outside `[0, len(keep))` but
Python list assignment accepts it (negative indices wrap), so no
IndexError is raised, refuting "for every index outside that range it
fails with an IndexError-class error". -/
theorem toggle_word_negative_index_cex :
    toggle_word ⟨1, [true], "mask-v1"⟩ (-1) false
      = Except.ok ⟨1, [false], "mask-v1"⟩
    ∧ ¬ (0 ≤ (-1 : Int)) := ⟨rfl, by decide⟩

/-- Claim C9, amended: toggling with `0 ≤ idx < len(keep)` sets exactly
that entry and preserves all others; negative indices down to `-len` wrap
(Python semantics); only indices outside `[-len, len)` fail with an
IndexError, leaving the mask unchanged. -/
theorem toggle_word_bounds (m : EditMask) (idx : Int) (v : Bool) :
    (0 ≤ idx → idx < m.keep.length →
      ∃ k : List Bool, toggle_word m idx v = .ok ⟨m.media_id, k, m.kind⟩
        ∧ k.length = m.keep.length
        ∧ k[idx.toNat]? = some v
        ∧ ∀ j : ℕ, j ≠ idx.toNat → k[j]? = m.keep[j]?)
    ∧ (-(m.keep.length : Int) ≤ idx → idx < 0 →
      toggle_word m idx v = .ok ⟨m.media_id, m.keep.set (idx + m.keep.length).toNat v, m.kind⟩)
    ∧ (idx < -(m.keep.length : Int) ∨ (m.keep.length : Int) ≤ idx →
      toggle_word m idx v = .error "IndexError") := by
  refine ⟨?_, ?_, ?_⟩
  · intro h0 hlt
    refine ⟨m.keep.set idx.toNat v, ?_, List.length_set _ _ _, ?_, ?_⟩
    · unfold toggle_word py_set_item
      rw [if_neg (not_lt.mpr h0)]
      rw [if_pos ⟨h0, hlt⟩]
      rfl
    · rw [List.getElem?_set]
      have hn : idx.toNat < m.keep.length := by omega
      simp [hn]
    · intro j hj
      rw [List.getElem?_set]
      rw [if_neg (show ¬ (idx.toNat = j) from fun h => hj h.symm)]
  · intro hge hneg
    unfold toggle_word py_set_item
    rw [if_pos hneg]
    rw [if_pos (show (0:Int) ≤ idx + (m.keep.length : Int)
        ∧ idx + (m.keep.length : Int) < (m.keep.length : Int) from ⟨by omega, by omega⟩)]
    rfl
  · intro hout
    unfold toggle_word py_set_item
    rcases hout with h | h
    · rw [if_pos (show idx < 0 from by omega)]
      rw [if_neg (show ¬ ((0:Int) ≤ idx + (m.keep.length : Int)
          ∧ idx + (m.keep.length : Int) < (m.keep.length : Int)) from by omega)]
      rfl
    · rw [if_neg (show ¬ (idx < 0) from by omega)]
      rw [if_neg (show ¬ ((0:Int) ≤ idx ∧ idx < (m.keep.length : Int)) from by omega)]
      rfl

theorem toggle_word_bounds_witness :
    ∃ k : List Bool, toggle_word ⟨1, [true, true], "mask-v1"⟩ 0 false = .ok ⟨1, k, "mask-v1"⟩
      ∧ k.length = ([true, true] : List Bool).length
      ∧ k[(0 : Int).toNat]? = some false
      ∧ ∀ j : ℕ, j ≠ (0 : Int).toNat → k[j]? = ([true, true] : List Bool)[j]? :=
  (toggle_word_bounds ⟨1, [true, true], "mask-v1"⟩ 0 false).1 (by decide) (by decide)
end EzClip

namespace EzClip

theorem paragraphs_of_cons (spk : String) (buf : List String) (X : List (String × List String)) :
    paragraphs_of ((spk, buf) :: X) = fmt_flush (some spk) buf ++ paragraphs_of X := by
  by_cases h : buf = []
  · simp [paragraphs_of, fmt_flush, List.filterMap_cons, h]
  · simp [paragraphs_of, fmt_flush, List.filterMap_cons, h, py_str_opt]

theorem fmt_walk_spec : ∀ (segs : List Seg) (spk : String) (buf : List String),
    fmt_walk segs (some spk) buf = paragraphs_of (merge_head spk buf (chunk_by_speaker segs)) := by
  intro segs
  induction segs with
  | nil =>
    intro spk buf
    show fmt_flush (some spk) buf = paragraphs_of [(spk, buf)]
    rw [paragraphs_of_cons]
    simp [paragraphs_of]
  | cons sg rest ih =>
    intro spk buf
    by_cases h : seg_speaker_label sg = spk
    · have hL : fmt_walk (sg :: rest) (some spk) buf
          = fmt_walk rest (some spk) (buf ++ seg_text_piece sg) := by
        simp [fmt_walk, h]
      rw [hL, ih]
      congr 1
      show merge_head spk (buf ++ seg_text_piece sg) (chunk_by_speaker rest)
        = merge_head spk buf (chunk_by_speaker (sg :: rest))
      cases hc : chunk_by_speaker rest with
      | nil => simp [merge_head, chunk_by_speaker, hc, h]
      | cons c more =>
        obtain ⟨lbl', txts⟩ := c
        by_cases h2 : lbl' = spk
        · have hcc : chunk_by_speaker (sg :: rest) = (lbl', seg_text_piece sg ++ txts) :: more := by
            simp [chunk_by_speaker, hc, h.trans h2.symm]
          rw [hcc]
          simp [merge_head, h2, List.append_assoc]
        · have h2a : ¬ seg_speaker_label sg = lbl' := fun hh => h2 (hh.symm.trans h)
          have hcc : chunk_by_speaker (sg :: rest)
              = (seg_speaker_label sg, seg_text_piece sg) :: (lbl', txts) :: more := by
            simp [chunk_by_speaker, hc, h2a]
          rw [hcc]
          simp [merge_head, h2, h]
    · have hL : fmt_walk (sg :: rest) (some spk) buf
          = fmt_flush (some spk) buf
            ++ fmt_walk rest (some (seg_speaker_label sg)) (seg_text_piece sg) := by
        simp [fmt_walk, h]
      rw [hL, ih]
      cases hc : chunk_by_speaker rest with
      | nil =>
        have hcc : chunk_by_speaker (sg :: rest) = [(seg_speaker_label sg, seg_text_piece sg)] := by
          simp [chunk_by_speaker, hc]
        rw [hcc]
        rw [show merge_head spk buf [(seg_speaker_label sg, seg_text_piece sg)]
            = (spk, buf) :: [(seg_speaker_label sg, seg_text_piece sg)] from by simp [merge_head, h]]
        rw [paragraphs_of_cons]
        rfl
      | cons c more =>
        obtain ⟨lbl', txts⟩ := c
        by_cases h2 : lbl' = seg_speaker_label sg
        · have hns : ¬ lbl' = spk := fun hh => h (h2.symm.trans hh)
          have hcc : chunk_by_speaker (sg :: rest) = (lbl', seg_text_piece sg ++ txts) :: more := by
            simp [chunk_by_speaker, hc, h2.symm]
          rw [hcc]
          rw [show merge_head spk buf ((lbl', seg_text_piece sg ++ txts) :: more)
              = (spk, buf) :: (lbl', seg_text_piece sg ++ txts) :: more from by
            simp [merge_head, hns]]
          rw [paragraphs_of_cons]
          congr 1
          rw [show merge_head (seg_speaker_label sg) (seg_text_piece sg) ((lbl', txts) :: more)
              = (seg_speaker_label sg, seg_text_piece sg ++ txts) :: more from by
            simp [merge_head, h2]]
          rw [h2]
        · have h2a : ¬ seg_speaker_label sg = lbl' := fun hh => h2 hh.symm
          have hcc : chunk_by_speaker (sg :: rest)
              = (seg_speaker_label sg, seg_text_piece sg) :: (lbl', txts) :: more := by
            simp [chunk_by_speaker, hc, h2a]
          rw [hcc]
          rw [show merge_head spk buf
                ((seg_speaker_label sg, seg_text_piece sg) :: (lbl', txts) :: more)
              = (spk, buf) :: (seg_speaker_label sg, seg_text_piece sg) :: (lbl', txts) :: more from by
            simp [merge_head, h]]
          rw [paragraphs_of_cons]
          congr 1
          rw [show merge_head (seg_speaker_label sg) (seg_text_piece sg) ((lbl', txts) :: more)
              = (seg_speaker_label sg, seg_text_piece sg) :: (lbl', txts) :: more from by
            simp [merge_head, h2]]

theorem fmt_walk_none : ∀ segs : List Seg,
    fmt_walk segs none [] = paragraphs_of (chunk_by_speaker segs) := by
  intro segs
  cases segs with
  | nil => rfl
  | cons sg rest =>
    have hL : fmt_walk (sg :: rest) none []
        = fmt_walk rest (some (seg_speaker_label sg)) (seg_text_piece sg) := by
      simp [fmt_walk, fmt_flush]
    rw [hL, fmt_walk_spec]
    congr 1
    cases hc : chunk_by_speaker rest with
    | nil =>
      have hcc : chunk_by_speaker (sg :: rest) = [(seg_speaker_label sg, seg_text_piece sg)] := by
        simp [chunk_by_speaker, hc]
      rw [hcc]
      rfl
    | cons c more =>
      obtain ⟨lbl', txts⟩ := c
      by_cases h2 : lbl' = seg_speaker_label sg
      · have hcc : chunk_by_speaker (sg :: rest) = (lbl', seg_text_piece sg ++ txts) :: more := by
          simp [chunk_by_speaker, hc, h2.symm]
        rw [hcc]
        rw [show merge_head (seg_speaker_label sg) (seg_text_piece sg) ((lbl', txts) :: more)
            = (seg_speaker_label sg, seg_text_piece sg ++ txts) :: more from by
          simp [merge_head, h2]]
        rw [h2]
      · have h2a : ¬ seg_speaker_label sg = lbl' := fun hh => h2 hh.symm
        have hcc : chunk_by_speaker (sg :: rest)
            = (seg_speaker_label sg, seg_text_piece sg) :: (lbl', txts) :: more := by
          simp [chunk_by_speaker, hc, h2a]
        rw [hcc]
        rw [show merge_head (seg_speaker_label sg) (seg_text_piece sg) ((lbl', txts) :: more)
            = (seg_speaker_label sg, seg_text_piece sg) :: (lbl', txts) :: more from by
          simp [merge_head, h2]]
end EzClip

namespace EzClip

/-- Claim C8 — formatter grouping contract: `segments_to_markdown` equals
the spec's group-then-render description (sort by start, group consecutive
same-speaker segments with missing speakers defaulting to the unknown
sentinel and texts stripped, emit one `**speaker:** texts` paragraph per
run with nonempty buffer, join paragraphs by a blank line; empty input
gives the empty string), plus the two source-test fixtures. -/
theorem segments_to_markdown_spec :
    (∀ segs : List Seg, segments_to_markdown segs = spec_markdown segs)
    ∧ segments_to_markdown ([] : List Seg) = ""
    ∧ segments_to_markdown [⟨0, 1, "hello", some "00"⟩, ⟨3/2, 2, "world", some "00"⟩]
        = "**00:** hello world"
    ∧ segments_to_markdown [⟨0, 1, "foo", some "A"⟩, ⟨1, 2, "bar", some "B"⟩]
        = "**A:** foo\n\n**B:** bar" := by
  have hmain : ∀ segs : List Seg, segments_to_markdown segs = spec_markdown segs := by
    intro segs
    unfold segments_to_markdown spec_markdown
    cases segs with
    | nil => rfl
    | cons sg rest =>
      rw [if_neg (by simp)]
      rw [fmt_walk_none]
  refine ⟨hmain, rfl, ?_, ?_⟩
  · have hs : sortSegs [⟨0, 1, "hello", some "00"⟩, ⟨3/2, 2, "world", some "00"⟩]
        = [⟨0, 1, "hello", some "00"⟩, ⟨3/2, 2, "world", some "00"⟩] := by
      apply List.Sorted.insertionSort_eq
      simp [List.sorted_cons, segLE]
      norm_num
    rw [segments_to_markdown, hs]
    decide
  · have hs : sortSegs [⟨0, 1, "foo", some "A"⟩, ⟨1, 2, "bar", some "B"⟩]
        = [⟨0, 1, "foo", some "A"⟩, ⟨1, 2, "bar", some "B"⟩] := by
      apply List.Sorted.insertionSort_eq
      simp [List.sorted_cons, segLE]
    rw [segments_to_markdown, hs]
    decide
end EzClip

namespace EzClip

theorem bool_eq_of_iff {a b : Bool} (h : a = true ↔ b = true) : a = b := by
  cases a <;> cases b <;> simp_all

theorem tally_votes_eq_fold (d : List (ℚ × String)) : ∀ (ts : List ℚ) (acc : List (String × ℕ)),
    ts.foldl (fun counts t =>
      match vote_of d t with
      | none => counts
      | some s => bump counts s) acc
      = (ts.filterMap (vote_of d)).foldl bump acc := by
  intro ts
  induction ts with
  | nil => intro acc; rfl
  | cons t ts ih =>
    intro acc
    simp only [List.foldl_cons, List.filterMap_cons]
    cases hv : vote_of d t with
    | none => exact ih acc
    | some s => simp only [List.foldl_cons]; exact ih (bump acc s)

theorem mem_fold_first_seen : ∀ (vs : List String) (acc : List String) (x : String),
    (x ∈ vs.foldl (fun acc s => if s ∈ acc then acc else acc ++ [s]) acc) ↔ x ∈ acc ∨ x ∈ vs := by
  intro vs
  induction vs with
  | nil => intro acc x; simp
  | cons v vs ih =>
    intro acc x
    simp only [List.foldl_cons]
    by_cases hv : v ∈ acc
    · rw [if_pos hv, ih]
      constructor
      · rintro (h | h)
        · exact Or.inl h
        · exact Or.inr (List.mem_cons_of_mem _ h)
      · rintro (h | h)
        · exact Or.inl h
        · rcases List.mem_cons.mp h with rfl | h
          · exact Or.inl hv
          · exact Or.inr h
    · rw [if_neg hv, ih]
      simp only [List.mem_append, List.mem_singleton, List.mem_cons]
      tauto

theorem mem_first_seen (vs : List String) (x : String) : x ∈ first_seen vs ↔ x ∈ vs := by
  unfold first_seen
  rw [mem_fold_first_seen]
  simp

theorem alookup_map_self (c : String → ℕ) : ∀ (order : List String) (x : String),
    alookup (order.map fun s => (s, c s)) x = if x ∈ order then some (c x) else none := by
  intro order
  induction order with
  | nil => intro x; simp [alookup]
  | cons b order ih =>
    intro x
    simp only [List.map_cons, alookup]
    by_cases hb : b = x
    · subst hb
      simp [List.mem_cons]
    · rw [if_neg hb, ih]
      by_cases hx : x ∈ order
      · simp [hx, List.mem_cons]
      · have hxb : ¬ x = b := fun h => hb h.symm
        simp [hx, List.mem_cons, hxb]

theorem bump_map_mem (c : String → ℕ) (order : List String) (x : String) (hx : x ∈ order) :
    bump (order.map fun s => (s, c s)) x
      = order.map fun s => (s, if s = x then c s + 1 else c s) := by
  unfold bump
  rw [alookup_map_self, if_pos hx, List.map_map]
  apply List.map_congr_left
  intro a _
  by_cases ha : a = x
  · simp [ha]
  · simp [ha]

theorem bump_map_new (c : String → ℕ) (order : List String) (x : String) (hx : ¬ x ∈ order) :
    bump (order.map fun s => (s, c s)) x = (order.map fun s => (s, c s)) ++ [(x, 1)] := by
  unfold bump
  rw [alookup_map_self, if_neg hx]
end EzClip

namespace EzClip

theorem fold_bump_counts : ∀ vs : List String,
    vs.foldl bump [] = (first_seen vs).map (fun s => (s, vs.count s)) := by
  intro vs
  induction vs using List.reverseRecOn with
  | nil => rfl
  | append_singleton vs x ih =>
    rw [List.foldl_append, List.foldl_cons, List.foldl_nil, ih]
    have hfs : first_seen (vs ++ [x])
        = if x ∈ first_seen vs then first_seen vs else first_seen vs ++ [x] := by
      unfold first_seen
      rw [List.foldl_append]
      rfl
    by_cases hx : x ∈ vs
    · have hx' : x ∈ first_seen vs := (mem_first_seen vs x).mpr hx
      rw [bump_map_mem _ _ _ hx', hfs, if_pos hx']
      apply List.map_congr_left
      intro a _
      rw [List.count_append]
      by_cases ha : a = x
      · subst ha
        simp [List.count_cons, List.count_nil]
      · simp [ha, List.count_cons, List.count_nil, fun h : x = a => ha h.symm]
    · have hx' : ¬ x ∈ first_seen vs := fun h => hx ((mem_first_seen vs x).mp h)
      rw [bump_map_new _ _ _ hx', hfs, if_neg hx', List.map_append]
      congr 1
      · apply List.map_congr_left
        intro a ha
        have hax : ¬ x = a := by
          intro h
          exact hx' (h ▸ ha)
        rw [List.count_append]
        simp [List.count_cons, List.count_nil, hax]
      · have hz : vs.count x = 0 := List.count_eq_zero.mpr hx
        simp [List.count_append, List.count_cons, List.count_nil, hz]
end EzClip

namespace EzClip

theorem find?_congr_mem {α : Type} (p q : α → Bool) : ∀ l : List α,
    (∀ x ∈ l, p x = q x) → l.find? p = l.find? q := by
  intro l
  induction l with
  | nil => intro _; rfl
  | cons a l ih =>
    intro h
    have ha := h a (List.mem_cons_self _ _)
    cases hp : p a with
    | true =>
      rw [List.find?_cons_of_pos _ hp, List.find?_cons_of_pos _ (by rw [← ha]; exact hp)]
    | false =>
      rw [List.find?_cons_of_neg _ (by rw [hp]; simp), List.find?_cons_of_neg _ (by rw [← ha, hp]; simp)]
      exact ih (fun x hx => h x (List.mem_cons_of_mem _ hx))

theorem foldl_pair (c : String → ℕ) : ∀ (order : List String) (b : String),
    (order.map fun s => (s, c s)).foldl (fun best y => if best.2 < y.2 then y else best) (b, c b)
      = (order.foldl (fun best y => if c best < c y then y else best) b,
         c (order.foldl (fun best y => if c best < c y then y else best) b)) := by
  intro order
  induction order with
  | nil => intro b; rfl
  | cons y order ih =>
    intro b
    simp only [List.map_cons, List.foldl_cons]
    by_cases h : c b < c y
    · rw [if_pos (show (b, c b).2 < (y, c y).2 from h), if_pos h]
      exact ih y
    · rw [if_neg (show ¬ ((b, c b).2 < (y, c y).2) from h), if_neg h]
      exact ih b

theorem foldl_max_find (c : String → ℕ) : ∀ (order : List String) (b : String),
    some (order.foldl (fun best y => if c best < c y then y else best) b)
      = (b :: order).find? (fun s => (b :: order).all (fun s' => c s' ≤ c s)) := by
  intro order
  induction order with
  | nil =>
    intro b
    rw [List.foldl_nil, List.find?_cons_of_pos]
    simp
  | cons y order ih =>
    intro b
    rw [List.foldl_cons]
    by_cases h : c b < c y
    · rw [if_pos h, ih y]
      have hpb : ¬ ((fun s => (b :: y :: order).all (fun s' => c s' ≤ c s)) b = true) := by
        simp only [List.all_eq_true, decide_eq_true_eq]
        intro hh
        exact absurd (hh y (List.mem_cons_of_mem _ (List.mem_cons_self _ _))) (by omega)
      have hstep : List.find? (fun s => (b :: y :: order).all fun s' => c s' ≤ c s) (b :: y :: order)
          = List.find? (fun s => (b :: y :: order).all fun s' => c s' ≤ c s) (y :: order) :=
        List.find?_cons_of_neg _ hpb
      rw [hstep]
      apply find?_congr_mem
      intro x hx
      apply bool_eq_of_iff
      simp only [List.all_cons, Bool.and_eq_true, decide_eq_true_eq, List.all_eq_true]
      constructor
      · rintro ⟨h1, h2⟩
        exact ⟨by omega, h1, h2⟩
      · rintro ⟨_, h1, h2⟩
        exact ⟨h1, h2⟩
    · have hyb : c y ≤ c b := Nat.le_of_not_lt h
      rw [if_neg h, ih b]
      by_cases hP : ∀ x ∈ b :: order, c x ≤ c b
      · have hp3 : (fun s => (b :: order).all (fun s' => c s' ≤ c s)) b = true := by
          simp only [List.all_eq_true, decide_eq_true_eq]
          exact hP
        have hp1 : (fun s => (b :: y :: order).all (fun s' => c s' ≤ c s)) b = true := by
          simp only [List.all_eq_true, decide_eq_true_eq]
          intro x hx
          rcases List.mem_cons.mp hx with rfl | hx
          · exact hP x (List.mem_cons_self _ _)
          · rcases List.mem_cons.mp hx with rfl | hx
            · exact hyb
            · exact hP x (List.mem_cons_of_mem _ hx)
        have hstep3 : List.find? (fun s => (b :: order).all fun s' => c s' ≤ c s) (b :: order)
            = some b := List.find?_cons_of_pos _ hp3
        have hstep1 : List.find? (fun s => (b :: y :: order).all fun s' => c s' ≤ c s) (b :: y :: order)
            = some b := List.find?_cons_of_pos _ hp1
        rw [hstep3, hstep1]
      · have hp3 : ¬ ((fun s => (b :: order).all (fun s' => c s' ≤ c s)) b = true) := by
          simp only [List.all_eq_true, decide_eq_true_eq]
          exact fun hh => hP hh
        have hp1b : ¬ ((fun s => (b :: y :: order).all (fun s' => c s' ≤ c s)) b = true) := by
          simp only [List.all_eq_true, decide_eq_true_eq]
          intro hh
          apply hP
          intro x hx
          rcases List.mem_cons.mp hx with rfl | hx
          · exact hh x (List.mem_cons_self _ _)
          · exact hh x (List.mem_cons_of_mem _ (List.mem_cons_of_mem _ hx))
        have hp1y : ¬ ((fun s => (b :: y :: order).all (fun s' => c s' ≤ c s)) y = true) := by
          simp only [List.all_eq_true, decide_eq_true_eq]
          intro hh
          apply hP
          intro x hx
          have hxy : c x ≤ c y := by
            rcases List.mem_cons.mp hx with rfl | hx
            · exact hh x (List.mem_cons_self _ _)
            · exact hh x (List.mem_cons_of_mem _ (List.mem_cons_of_mem _ hx))
          omega
        have hstep3 : List.find? (fun s => (b :: order).all fun s' => c s' ≤ c s) (b :: order)
            = List.find? (fun s => (b :: order).all fun s' => c s' ≤ c s) order :=
          List.find?_cons_of_neg _ hp3
        have hstep1b : List.find? (fun s => (b :: y :: order).all fun s' => c s' ≤ c s) (b :: y :: order)
            = List.find? (fun s => (b :: y :: order).all fun s' => c s' ≤ c s) (y :: order) :=
          List.find?_cons_of_neg _ hp1b
        have hstep1y : List.find? (fun s => (b :: y :: order).all fun s' => c s' ≤ c s) (y :: order)
            = List.find? (fun s => (b :: y :: order).all fun s' => c s' ≤ c s) order :=
          List.find?_cons_of_neg _ hp1y
        rw [hstep3, hstep1b, hstep1y]
        apply find?_congr_mem
        intro x hx
        apply bool_eq_of_iff
        simp only [List.all_cons, Bool.and_eq_true, decide_eq_true_eq, List.all_eq_true]
        constructor
        · rintro ⟨h1, h2⟩
          exact ⟨h1, by omega, h2⟩
        · rintro ⟨h1, _, h2⟩
          exact ⟨h1, h2⟩
end EzClip

namespace EzClip

theorem fallback_eq_spec (d : List (ℚ × String)) (s e : ℚ) :
    fallback_segment_speaker d s e = spec_segment_speaker d s e := by
  have ht : tally_votes d (ticks s e)
      = ((ticks s e).filterMap (vote_of d)).foldl bump [] :=
    tally_votes_eq_fold d (ticks s e) []
  unfold fallback_segment_speaker spec_segment_speaker
  rw [ht, fold_bump_counts]
  cases hfs : first_seen ((ticks s e).filterMap (vote_of d)) with
  | nil => rfl
  | cons b order =>
    rw [List.map_cons]
    have h1 : py_max_by_val
        ((b, ((ticks s e).filterMap (vote_of d)).count b)
          :: order.map fun x => (x, ((ticks s e).filterMap (vote_of d)).count x))
        = some ((order.map fun x => (x, ((ticks s e).filterMap (vote_of d)).count x)).foldl
            (fun best y => if best.2 < y.2 then y else best)
            (b, ((ticks s e).filterMap (vote_of d)).count b)) := rfl
    rw [h1, foldl_pair (fun x => ((ticks s e).filterMap (vote_of d)).count x) order b,
      ← foldl_max_find (fun x => ((ticks s e).filterMap (vote_of d)).count x) order b]

/-- Claim C4 — fallback voting assignment: on the fallback path every
segment is assigned exactly as the specification describes: one vote per
0.5-second tick of the segment whose nearest stamped tick key (absolute
distance, over all diarization-turn ticks) is within 1.0 second (strict,
as the source's `< 1.0`), the speaker with the most votes wins, ties go to
the speaker whose votes were counted first (insertion order), and zero
votes yield the sentinel `SPEAKER_UNKNOWN`. -/
theorem fallback_voting_refines_spec :
    (∀ (turns : List Turn) (segs : List Seg),
      fallback_assign turns segs = spec_fallback_assign turns segs)
    ∧ ∀ (turns : List Turn) (s e : ℚ),
        (ticks s e).filterMap (vote_of (build_speaker_map turns)) = [] →
        fallback_segment_speaker (build_speaker_map turns) s e = "SPEAKER_UNKNOWN" := by
  constructor
  · intro turns segs
    unfold fallback_assign spec_fallback_assign
    apply List.map_congr_left
    intro sg _
    rw [fallback_eq_spec]
  · intro turns s e hv
    have h0 : tally_votes (build_speaker_map turns) (ticks s e) = [] := by
      have ht : tally_votes (build_speaker_map turns) (ticks s e)
          = ((ticks s e).filterMap (vote_of (build_speaker_map turns))).foldl bump [] :=
        tally_votes_eq_fold _ _ []
      rw [ht, hv]
      rfl
    unfold fallback_segment_speaker
    rw [h0]
    rfl

theorem fallback_voting_refines_spec_witness :
    (ticks 0 0).filterMap (vote_of (build_speaker_map [])) = []
    ∧ fallback_segment_speaker (build_speaker_map []) 0 0 = "SPEAKER_UNKNOWN" := by
  have hv : (ticks 0 0).filterMap (vote_of (build_speaker_map [])) = [] := by
    have h0 : num_ticks 0 0 = 0 := by
      norm_num [num_ticks]
    simp [ticks, h0]
  exact ⟨hv, fallback_voting_refines_spec.2 [] 0 0 hv⟩
end EzClip
